import Mathlib

/-!
Verification development for the `async_downloader` repository
(source file `src/async_downloader.py`).

The Python source is shallowly embedded below:

* the body of the retry loop of `download_file` becomes `runAttempt`, a pure
  function from the environment's behaviour for one attempt (the GET response,
  the delivered body chunks, and whether the request or the stream raised)
  and the current state of the destination file to the attempt's outcome;
* the `while True` retry loop of `download_file` becomes `go`, structurally
  recursive on the number of attempts still allowed (`max_retries + 1`);
* `sanitize_filename`, the path-containment check of `download_file`,
  `is_url_downloadable` and the callback wiring of `download_multiple_files`
  are embedded as pure functions over `List Char`
  (strings) and lists of path components;
* the `asyncio.Semaphore` gate of `download_multiple_files` becomes a small
  transition system whose reachable states are analysed.

File contents are modelled as `Option (List Nat)`: `none` means the
destination file does not exist, `some bytes` gives its bytes.  Randomness
(`uuid.uuid4().hex[:8]`) is modelled by a seed parameter.
-/

namespace AsyncDownloader

/-- Bytes of one chunk yielded by `response.content.iter_chunked(chunk_size)`. -/
abbrev Chunk := List Nat

/-- One GET response as the body of the retry loop of `download_file` observes
it: HTTP status, parsed `content-length` header (`none` when the header is
absent or unparsable), the body chunks that are delivered before the stream
either completes or is interrupted, and whether the stream raises after those
chunks (mid-transfer disconnect or I/O error). -/
structure Resp where
  status : Nat
  contentLength : Option Nat
  chunks : List Chunk
  streamError : Bool
deriving DecidableEq

/-- Environment behaviour for one attempt of `download_file`: either
`session.get` itself raises before any response arrives (transport error), or
a response arrives. -/
inductive AttemptBehavior
  | transportError
  | ok (r : Resp)
deriving DecidableEq

/-- Result of one iteration of the `while True` body of `download_file`:
whether the attempt returned normally, the destination file afterwards, the
`downloaded` values passed to `progress_callback` (one per written chunk), and
whether the server-ignored-Range restart (status 200 to a ranged request)
happened in this attempt. -/
structure AttemptOut where
  ok : Bool
  fs : Option (List Nat)
  events : List Nat
  restart : Bool
deriving DecidableEq

/-- `os.path.getsize` of the destination if it exists, else `0`
(lines 209-212 of the source). -/
def sizeFs (fs : Option (List Nat)) : Nat := (fs.getD []).length

/-- The `downloaded` values passed to `progress_callback` while streaming
`cs` starting from `downloaded = d`: after each chunk the code does
`downloaded += len(chunk)` and then invokes the callback. -/
def streamEvents (d : Nat) : List Chunk → List Nat
  | [] => []
  | c :: cs => (d + c.length) :: streamEvents (d + c.length) cs

/-- One iteration of the `while True` body of `download_file`
(lines 206-267 of the source):

* `local_size` is the size of the existing destination file (0 if absent) and
  a `Range: bytes=<local_size>-` header is sent exactly when it is positive,
  in which case the write mode starts as append;
* a transport error, or a response with status >= 400 (which raises
  `ClientResponseError` before the file is opened), fails the attempt with the
  file untouched;
* a 200 response to a ranged request means the server ignored the resume:
  the mode becomes truncating write and `local_size` is discarded;
* otherwise the file is opened (truncating unless in append mode) and the
  delivered chunks are written, with a progress value emitted per chunk;
  the attempt returns normally iff the stream was not interrupted. -/
def runAttempt (b : AttemptBehavior) (fs : Option (List Nat)) : AttemptOut :=
  let localSize0 := sizeFs fs
  match b with
  | .transportError => ⟨false, fs, [], false⟩
  | .ok r =>
    if 400 ≤ r.status then ⟨false, fs, [], false⟩
    else
      let rangeRequested := decide (0 < localSize0)
      let restart := rangeRequested && (r.status == 200)
      let appendMode := rangeRequested && !(r.status == 200)
      let localSize := if restart then 0 else localSize0
      let start := if appendMode then fs.getD [] else ([] : List Nat)
      ⟨!r.streamError, some (start ++ r.chunks.flatten), streamEvents localSize r.chunks, restart⟩

/-- Terminal outcome of `download_file`: return of the filepath, or the final
re-raise after retries are exhausted. -/
inductive Outcome
  | success
  | failure
deriving DecidableEq

/-- Observable result of one `download_file` invocation: terminal outcome,
final destination-file state, concatenated progress values of all attempts,
number of attempts executed, and whether any attempt performed the
server-ignored-Range restart. -/
structure RunResult where
  outcome : Outcome
  fs : Option (List Nat)
  events : List Nat
  attempts : Nat
  restarted : Bool
deriving DecidableEq

/-- The retry loop of `download_file` (lines 204-283).  `fuel` is the number
of attempts still allowed; the loop is entered with `max_retries + 1`.  After
a failed attempt the code increments `attempt` and re-raises exactly when
`attempt > max_retries`, i.e. when no further attempt is allowed. -/
def go (env : Nat → AttemptBehavior) : Nat → Nat → Option (List Nat) → RunResult
  | 0, _, fs => ⟨.failure, fs, [], 0, false⟩
  | fuel + 1, a, fs =>
    let o := runAttempt (env a) fs
    if o.ok then ⟨.success, o.fs, o.events, 1, o.restart⟩
    else if fuel = 0 then ⟨.failure, o.fs, o.events, 1, o.restart⟩
    else
      let rest := go env fuel (a + 1) o.fs
      ⟨rest.outcome, rest.fs, o.events ++ rest.events, rest.attempts + 1,
        o.restart || rest.restarted⟩

/-- `download_file` on an environment `env` (behaviour of attempt `i` is
`env i`), initial destination-file state `fs0`, and `maxRetries`. -/
def download_file (env : Nat → AttemptBehavior) (fs0 : Option (List Nat))
    (maxRetries : Nat) : RunResult :=
  go env (maxRetries + 1) 0 fs0

/-- Destination-file state after `n` executed attempts, starting at attempt
index `a` with file state `fs`; used to state that the failure path performs
no cleanup beyond what the attempts themselves wrote. -/
def afterN (env : Nat → AttemptBehavior) : Nat → Nat → Option (List Nat) → Option (List Nat)
  | 0, _, fs => fs
  | n + 1, a, fs => afterN env n (a + 1) (runAttempt (env a) fs).fs

/-- `chainFrom b l` holds when `l` is non-decreasing and bounded below by `b`. -/
def chainFrom (b : Nat) : List Nat → Bool
  | [] => true
  | x :: xs => decide (b ≤ x) && chainFrom x xs

/-- A list of progress values is monotonically non-decreasing. -/
def nondecreasing (l : List Nat) : Bool := chainFrom 0 l

/-- Last element of a list, with default. -/
def lastD : List Nat → Nat → Nat
  | [], d => d
  | x :: xs, _ => lastD xs x

/-- The environment presents an HTTP error status (>= 400) for a behaviour. -/
def errStatus : AttemptBehavior → Bool
  | .transportError => false
  | .ok r => decide (400 ≤ r.status)

/-- Environment refuting C6 as stated: attempt 0 writes 3 bytes and then the
stream is interrupted; attempt 1 is resumed (Range sent) but the server
answers 200 with a fresh 1-byte body, so the code restarts from zero and the
observer sees progress 3 followed by progress 1. -/
def envC6 : Nat → AttemptBehavior := fun i =>
  if i = 0 then .ok ⟨200, none, [[7, 7, 7]], true⟩ else .ok ⟨200, none, [[9]], false⟩

/-! ### Filename sanitizer (`sanitize_filename`, lines 18-34 of the source) -/

/-- The characters of a string literal. -/
def chars (s : String) : List Char := s.toList

/-- Characters stripped by Python `str.strip()` (ASCII whitespace). -/
def isPyWs (c : Char) : Bool :=
  c == ' ' || c == '\t' || c == '\n' || c == '\r' || c == Char.ofNat 11 || c == Char.ofNat 12

/-- Characters stripped by `str.strip('. ')`. -/
def isDotSpace (c : Char) : Bool := c == '.' || c == ' '

/-- Value of one hexadecimal digit character, in either case, as
`urllib.parse.unquote` accepts them. -/
def hexVal (c : Char) : Option Nat :=
  let n := c.toNat
  if 48 ≤ n ∧ n ≤ 57 then some (n - 48)
  else if 97 ≤ n ∧ n ≤ 102 then some (n - 87)
  else if 65 ≤ n ∧ n ≤ 70 then some (n - 55)
  else none

/-- `urllib.parse.unquote`: decode `%XX` escapes, keeping invalid escape
sequences verbatim; modelled at character level. -/
def unquote : List Char → List Char
  | [] => []
  | '%' :: a :: b :: rest =>
    match hexVal a, hexVal b with
    | some x, some y => Char.ofNat (16 * x + y) :: unquote rest
    | _, _ => '%' :: unquote (a :: b :: rest)
  | '%' :: rest => '%' :: unquote rest
  | c :: rest => c :: unquote rest

/-- `os.path.basename` on posix: the suffix after the last `/`. -/
def pyBasename (l : List Char) : List Char :=
  l.foldl (fun acc c => if c == '/' then [] else acc ++ [c]) []

/-- `name.replace(os.path.sep, "_")` applied characterwise; `os.path.sep` is
`/` on posix and `os.path.altsep` is `None`, so the second replace of the
source is the identity. -/
def replaceSep (c : Char) : Char := if c == '/' then '_' else c

/-- Remove the maximal trailing run of characters satisfying `p`. -/
def dropTrailingWhile (p : Char → Bool) : List Char → List Char
  | [] => []
  | c :: cs =>
    match dropTrailingWhile p cs with
    | [] => if p c then [] else [c]
    | d :: ds => c :: d :: ds

/-- Python `str.strip` with character class `p`: remove the maximal leading
and trailing runs of characters satisfying `p`. -/
def stripBoth (p : Char → Bool) (l : List Char) : List Char :=
  dropTrailingWhile p (l.dropWhile p)

/-- The sixteen lowercase hexadecimal digit characters. -/
def hexDigits : List Char := (List.range 16).map Nat.digitChar

/-- `uuid.uuid4().hex[:8]` modelled by a seed: eight lowercase hex digits. -/
def uuidHex8 (seed : Nat) : List Char :=
  (List.range 8).map (fun i => Nat.digitChar (seed / 16 ^ (7 - i) % 16))

/-- The random fallback name `f"download_{uuid.uuid4().hex[:8]}"`. -/
def fallbackName (seed : Nat) : List Char :=
  'd' :: 'o' :: 'w' :: 'n' :: 'l' :: 'o' :: 'a' :: 'd' :: '_' :: uuidHex8 seed

/-- `sanitize_filename` (lines 18-34 of the source): on a non-empty input,
percent-decode, take the basename, replace path separators by underscores,
`strip()` and then `strip('. ')`; an empty input, or a result that reduces to
nothing, yields the random fallback name. -/
def sanitize_filename (seed : Nat) (name : List Char) : List Char :=
  if name = [] then fallbackName seed
  else
    let n1 := unquote name
    let n2 := pyBasename n1
    let n3 := n2.map replaceSep
    let n4 := stripBoth isPyWs n3
    let n5 := stripBoth isDotSpace n4
    if n5 = [] then fallbackName seed else n5

/-- A usable single path component: non-empty, free of the path separator,
and none of the special components `.` and `..`.  Joining such a component
under a directory lands strictly inside that directory. -/
def GoodName (n : List Char) : Bool :=
  !(n == []) && n.all (fun c => !(c == '/')) && !(n == ['.']) && !(n == ['.', '.'])

/-! ### Destination-path containment (`download_file`, lines 190-201) -/

/-- A posix path string is absolute. -/
def isAbs (p : List Char) : Bool :=
  match p with
  | c :: _ => c == '/'
  | [] => false

/-- Split a path string at `/` into its components; empty components are
kept (they are dropped later by normalization). -/
def splitP : List Char → List (List Char)
  | [] => [[]]
  | c :: rest =>
    if c == '/' then [] :: splitP rest
    else
      match splitP rest with
      | [] => [[c]]
      | s :: ss => (c :: s) :: ss

/-- One step of `os.path.normpath` over the components of an absolute path:
empty and `.` components are dropped, `..` pops the previous component (and
is dropped at the root), ordinary components are appended. -/
def normStep (acc : List (List Char)) (comp : List Char) : List (List Char) :=
  if comp = [] ∨ comp = ['.'] then acc
  else if comp = ['.', '.'] then acc.dropLast
  else acc ++ [comp]

/-- `os.path.normpath` of an absolute path given by its components; the
result is the component list of the normalized path (`[]` is the root `/`). -/
def normParts (l : List (List Char)) : List (List Char) :=
  l.foldl normStep []

/-- `os.path.abspath`: prepend the current working directory (given as the
component list of an absolute path) unless the path is already absolute, then
normalize; the result is the component list of an absolute path. -/
def abspath (cwd : List (List Char)) (p : List Char) : List (List Char) :=
  normParts ((if isAbs p then [] else cwd) ++ splitP p)

/-- `os.path.join` for two arguments on posix: an absolute second argument
wins; otherwise concatenate, inserting `/` unless the first argument is empty
or already ends in `/`. -/
def joinPath (d n : List Char) : List Char :=
  if isAbs n then n
  else if d = [] then n
  else if d.getLast? = some '/' then d ++ n
  else d ++ '/' :: n

/-- Longest common prefix of two component lists: `os.path.commonpath` of two
absolute, already-normalized paths. -/
def lcp : List (List Char) → List (List Char) → List (List Char)
  | a :: as, b :: bs => if a = b then a :: lcp as bs else []
  | _, _ => []

/-- The containment check of lines 198-201 of the source:
`os.path.commonpath([abspath(dir)]) != os.path.commonpath([abspath(dir), abspath(filepath)])`,
where `commonpath` of a singleton is the path itself and of a pair is the
longest common component prefix. -/
def escapeCheck (cwd : List (List Char)) (dd fp : List Char) : Bool :=
  decide (abspath cwd dd ≠ lcp (abspath cwd dd) (abspath cwd fp))

/-- Lines 193-201 of `download_file`: sanitize the name, join it under the
download directory, and when the joined path fails the containment check fall
back to a fresh random name (seed `seedS` feeds the sanitizer's fallback,
seed `seedF` the containment fallback).  Returns the final filename and
filepath. -/
def resolveDestination (cwd : List (List Char)) (dd rawName : List Char)
    (seedS seedF : Nat) : List Char × List Char :=
  let filename := sanitize_filename seedS rawName
  let filepath := joinPath dd filename
  if escapeCheck cwd dd filepath then
    let fb := fallbackName seedF
    (fb, joinPath dd fb)
  else (filename, filepath)

/-- Per-resource observables of `download_with_semaphore` inside
`download_multiple_files` (lines 387-404): `statusArg` is the filename the
code passes to `status_callback` (`os.path.basename(url)` with a random
fallback when empty, computed before sanitization), `progressName` is the
sanitized filename that `download_file` passes to `progress_callback` and
uses on disk, `filepath` the destination path, and `run` the transfer. -/
structure UnitOutcome where
  statusArg : List Char
  progressName : List Char
  filepath : List Char
  run : RunResult

/-- `download_with_semaphore` (lines 387-404): compute the raw basename,
run `download_file` (which sanitizes it and resolves the destination), and
report status with the raw name. -/
def download_with_semaphore (cwd : List (List Char)) (dd url : List Char)
    (env : Nat → AttemptBehavior) (fs0 : Option (List Nat)) (mr : Nat)
    (s1 s2 s3 : Nat) : UnitOutcome :=
  let rawName := if pyBasename url = [] then fallbackName s1 else pyBasename url
  let nd := resolveDestination cwd dd rawName s2 s3
  { statusArg := rawName, progressName := nd.1, filepath := nd.2,
    run := download_file env fs0 mr }

/-! ### Downloadability prober (`is_url_downloadable`, lines 286-362) -/

/-- Status and headers of a probe response as `is_url_downloadable` reads
them: raw `content-type`, `content-disposition` and `content-length` header
values (`none` when a header is absent; the code lowercases content-type
itself). -/
structure ProbeResp where
  status : Nat
  contentType : Option (List Char)
  contentDisposition : Option (List Char)
  contentLength : Option (List Char)
deriving DecidableEq

/-- Python truthiness of `headers.get(...)`: present and non-empty. -/
def truthy : Option (List Char) → Bool
  | none => false
  | some s => !(s == [])

/-- `str.lower()` characterwise. -/
def lowerList (l : List Char) : List Char := l.map Char.toLower

/-- The first list starts the second. -/
def startsWith : List Char → List Char → Bool
  | [], _ => true
  | _ :: _, [] => false
  | p :: ps, c :: cs => p == c && startsWith ps cs

/-- Python `pat in l` for strings: `pat` occurs as a contiguous substring. -/
def containsSub : List Char → List Char → Bool
  | pat, [] => pat == []
  | pat, c :: rest => startsWith pat (c :: rest) || containsSub pat rest

/-- Classification reasons, one per return site of `is_url_downloadable`
(the code returns free-text strings built from these data). -/
inductive Reason
  | blockedHost
  | headStatus (s : Nat)
  | headHasLenOrDisp
  | headCtypeNonHtml
  | getStatus (s : Nat)
  | getHasDisp
  | getCtypeNonHtml
  | likelyHtml
deriving DecidableEq

/-- `DEFAULT_BLOCKLIST` (line 182 of the source). -/
def DEFAULT_BLOCKLIST : List (List Char) :=
  [chars ("google.com"), chars ("youtube.com"), chars ("facebook.com")]

/-- `host.endswith(blocked)`. -/
def endsWithL (l suf : List Char) : Bool := startsWith suf.reverse l.reverse

/-- The blocklist check of lines 296-304 (applied to the lowercased host). -/
def blockedHost (host : List Char) : Bool :=
  DEFAULT_BLOCKLIST.any (fun b => endsWithL host b)

/-- The string `text/html`. -/
def htmlPat : List Char := chars ("text/html")

/-- `if ctype and "text/html" not in ctype`: a non-empty, non-HTML
content-type (on the already-lowercased header value). -/
def ctypeNonHtml (r : ProbeResp) : Bool :=
  let ct := lowerList (r.contentType.getD [])
  !(ct == []) && !(containsSub htmlPat ct)

/-- The ranged GET probe classification (lines 340-359 of the source). -/
def getProbe (r : ProbeResp) : Bool × Reason :=
  if 400 ≤ r.status then (false, .getStatus r.status)
  else if truthy r.contentDisposition then (true, .getHasDisp)
  else if ctypeNonHtml r then (true, .getCtypeNonHtml)
  else (false, .likelyHtml)

/-- `is_url_downloadable` (lines 286-362) as a function of the host, the HEAD
outcome (`Except.error ()` when the HEAD request raises: a disallowed method
surfacing as `ClientResponseError`, a timeout, or any other transport error)
and the response to the ranged GET probe.  A transport error on the GET probe
itself propagates out of the function and is outside this model. -/
def is_url_downloadable (host : List Char) (head : Except Unit ProbeResp)
    (get : ProbeResp) : Bool × Reason :=
  if blockedHost (lowerList host) then (false, .blockedHost)
  else
    match head with
    | .error _ => getProbe get
    | .ok r =>
      if 400 ≤ r.status then (false, .headStatus r.status)
      else if truthy r.contentDisposition || truthy r.contentLength then
        (true, .headHasLenOrDisp)
      else if ctypeNonHtml r then (true, .headCtypeNonHtml)
      else getProbe get

/-- A HEAD response carries a decisive header: truthy content-disposition or
content-length, or a non-empty non-HTML content-type. -/
def decisiveHead (r : ProbeResp) : Bool :=
  truthy r.contentDisposition || truthy r.contentLength || ctypeNonHtml r

/-- The HEAD phase is ambiguous in the sense of the code: the request raised
(disallowed, timeout, transport error), or it completed with a status below
400 and no decisive header. -/
def ambiguousHead : Except Unit ProbeResp → Bool
  | .error _ => true
  | .ok r => decide (r.status < 400) && !(decisiveHead r)

/-! ### Bounded concurrency (`download_multiple_files`, lines 385-408) -/

/-- Phase of one URL's task in `download_multiple_files`: before acquiring
the semaphore, inside `async with semaphore` (a running `download_file`
invocation), or finished with the slot released. -/
inductive TaskPhase
  | waiting
  | active
  | done
deriving DecidableEq

/-- Scheduler state: the internal counter of `asyncio.Semaphore` and the
phase of every task created by `download_multiple_files`. -/
structure SemState where
  sem : Nat
  tasks : List TaskPhase
deriving DecidableEq

/-- Number of currently active `download_file` invocations. -/
def countActive (ts : List TaskPhase) : Nat :=
  ts.countP (fun t => t == TaskPhase.active)

/-- Interleaving semantics of the semaphore gate: `acquire` admits a waiting
task when the counter is positive and decrements it (entry into
`async with semaphore`); `release` finishes an active task and increments the
counter (exit from the `async with` block). -/
inductive SemStep : SemState → SemState → Prop
  | acquire (s : Nat) (l r : List TaskPhase) (hs : 0 < s) :
      SemStep ⟨s, l ++ TaskPhase.waiting :: r⟩ ⟨s - 1, l ++ TaskPhase.active :: r⟩
  | release (s : Nat) (l r : List TaskPhase) :
      SemStep ⟨s, l ++ TaskPhase.active :: r⟩ ⟨s + 1, l ++ TaskPhase.done :: r⟩

/-- States reachable in a `download_multiple_files` run over `n` URLs with
`asyncio.Semaphore(M)`: initially the counter is `M` and every task waits. -/
inductive SemReachable (M n : Nat) : SemState → Prop
  | init : SemReachable M n ⟨M, List.replicate n TaskPhase.waiting⟩
  | step {s t : SemState} : SemReachable M n s → SemStep s t → SemReachable M n t

section LoopLemmas

theorem go_succ (env : Nat → AttemptBehavior) (fuel a : Nat) (fs : Option (List Nat)) :
    go env (fuel + 1) a fs =
      (let o := runAttempt (env a) fs
      if o.ok then ⟨.success, o.fs, o.events, 1, o.restart⟩
      else if fuel = 0 then ⟨.failure, o.fs, o.events, 1, o.restart⟩
      else
        let rest := go env fuel (a + 1) o.fs
        ⟨rest.outcome, rest.fs, o.events ++ rest.events, rest.attempts + 1,
          o.restart || rest.restarted⟩) := rfl

theorem chainFrom_mono {b b' : Nat} (h : b' ≤ b) :
    ∀ {l : List Nat}, chainFrom b l = true → chainFrom b' l = true := by
  intro l
  cases l with
  | nil => intro _; rfl
  | cons x xs =>
    simp only [chainFrom, Bool.and_eq_true, decide_eq_true_eq]
    rintro ⟨h1, h2⟩
    exact ⟨le_trans h h1, h2⟩

theorem chainFrom_append {b : Nat} :
    ∀ {l₁ l₂ : List Nat}, chainFrom b l₁ = true → chainFrom (lastD l₁ b) l₂ = true →
      chainFrom b (l₁ ++ l₂) = true := by
  intro l₁
  induction l₁ generalizing b with
  | nil => intro l₂ _ h2; simpa [lastD] using h2
  | cons x xs ih =>
    intro l₂ h1 h2
    simp only [chainFrom, Bool.and_eq_true, decide_eq_true_eq] at h1 ⊢
    exact ⟨h1.1, ih h1.2 (by simpa [lastD] using h2)⟩

theorem lastD_append : ∀ (l₁ l₂ : List Nat) (d : Nat),
    lastD (l₁ ++ l₂) d = lastD l₂ (lastD l₁ d) := by
  intro l₁
  induction l₁ with
  | nil => intro l₂ d; simp [lastD]
  | cons x xs ih => intro l₂ d; simp [lastD, ih]

theorem chainFrom_streamEvents (cs : List Chunk) :
    ∀ d, chainFrom d (streamEvents d cs) = true := by
  induction cs with
  | nil => intro d; rfl
  | cons c cs ih =>
    intro d
    simp only [streamEvents, chainFrom, Bool.and_eq_true, decide_eq_true_eq]
    exact ⟨Nat.le_add_right d c.length, ih (d + c.length)⟩

theorem lastD_streamEvents (cs : List Chunk) :
    ∀ d, lastD (streamEvents d cs) d = d + cs.flatten.length := by
  induction cs with
  | nil => intro d; simp [streamEvents, lastD]
  | cons c cs ih =>
    intro d
    simp only [streamEvents, lastD, List.flatten_cons, List.length_append]
    rw [ih (d + c.length)]
    omega

/-- An attempt that does not perform the server-ignored-Range restart emits
progress values that continue non-decreasingly from the current file size,
and leaves the file at a size equal to the last emitted progress value. -/
theorem runAttempt_chain (b : AttemptBehavior) (fs : Option (List Nat))
    (h : (runAttempt b fs).restart = false) :
    chainFrom (sizeFs fs) (runAttempt b fs).events = true ∧
      sizeFs (runAttempt b fs).fs = lastD (runAttempt b fs).events (sizeFs fs) := by
  cases b with
  | transportError => simp [runAttempt, lastD, chainFrom]
  | ok r =>
    by_cases hs : 400 ≤ r.status
    · simp [runAttempt, hs, lastD, chainFrom]
    · by_cases hpos : 0 < sizeFs fs
      · have hd : decide (0 < sizeFs fs) = true := decide_eq_true hpos
        by_cases h200 : r.status = 200
        · exfalso
          simp [runAttempt, hs, hpos, h200] at h
        · have hb : (r.status == 200) = false := beq_eq_false_iff_ne.mpr h200
          simp only [runAttempt, if_neg hs, hd, hb, Bool.and_false, Bool.not_false,
            Bool.and_true, Bool.true_and, Bool.false_eq_true, if_false, if_true,
            Bool.and_self, if_neg, ite_true, ite_false]
          constructor
          · exact chainFrom_streamEvents r.chunks (sizeFs fs)
          · rw [lastD_streamEvents]
            simp [sizeFs]
      · have hz : sizeFs fs = 0 := Nat.eq_zero_of_not_pos hpos
        have hd : decide (0 < sizeFs fs) = false := decide_eq_false hpos
        simp only [runAttempt, if_neg hs, hd, Bool.false_and, Bool.false_eq_true,
          if_false, ite_false]
        constructor
        · exact chainFrom_streamEvents r.chunks (sizeFs fs)
        · rw [lastD_streamEvents, hz]
          simp [sizeFs]

/-- An attempt never deletes an existing destination file. -/
theorem runAttempt_isSome (b : AttemptBehavior) (fs : Option (List Nat))
    (h : fs.isSome = true) : ((runAttempt b fs).fs).isSome = true := by
  cases b with
  | transportError => simpa [runAttempt] using h
  | ok r =>
    by_cases hs : 400 ≤ r.status
    · simpa [runAttempt, hs] using h
    · simp [runAttempt, hs]

theorem afterN_isSome (env : Nat → AttemptBehavior) :
    ∀ (n a : Nat) (fs : Option (List Nat)), fs.isSome = true →
      (afterN env n a fs).isSome = true := by
  intro n
  induction n with
  | zero => intro a fs h; simpa [afterN] using h
  | succ n ih =>
    intro a fs h
    exact ih (a + 1) _ (runAttempt_isSome (env a) fs h)

theorem go_attempts_le (env : Nat → AttemptBehavior) :
    ∀ (fuel a : Nat) (fs : Option (List Nat)), (go env fuel a fs).attempts ≤ fuel := by
  intro fuel
  induction fuel with
  | zero => intro a fs; exact Nat.le_refl 0
  | succ fuel ih =>
    intro a fs
    rw [go_succ]
    by_cases hok : (runAttempt (env a) fs).ok = true
    · simp [hok]
    · by_cases hz : fuel = 0
      · simp [hok, hz]
      · have hrec := ih (a + 1) (runAttempt (env a) fs).fs
        simp only [hok, hz, if_false, Bool.false_eq_true]
        show (go env fuel (a + 1) (runAttempt (env a) fs).fs).attempts + 1 ≤ fuel + 1
        omega

theorem go_allFail (env : Nat → AttemptBehavior)
    (h : ∀ i fs, (runAttempt (env i) fs).ok = false) :
    ∀ (fuel a : Nat) (fs : Option (List Nat)),
      (go env (fuel + 1) a fs).outcome = .failure ∧
        (go env (fuel + 1) a fs).attempts = fuel + 1 := by
  intro fuel
  induction fuel with
  | zero => intro a fs; rw [go_succ]; simp [h a fs]
  | succ fuel ih =>
    intro a fs
    rw [go_succ]
    simp only [h a fs, Bool.false_eq_true, if_false, Nat.succ_ne_zero]
    rcases ih (a + 1) (runAttempt (env a) fs).fs with ⟨h1, h2⟩
    constructor
    · exact h1
    · show (go env (fuel + 1) (a + 1) (runAttempt (env a) fs).fs).attempts + 1 = fuel + 1 + 1
      omega

theorem go_failure_fs (env : Nat → AttemptBehavior) :
    ∀ (fuel a : Nat) (fs : Option (List Nat)),
      (go env fuel a fs).outcome = .failure →
        (go env fuel a fs).fs = afterN env fuel a fs := by
  intro fuel
  induction fuel with
  | zero => intro a fs _; rfl
  | succ fuel ih =>
    intro a fs hout
    rw [go_succ] at hout ⊢
    by_cases hok : (runAttempt (env a) fs).ok = true
    · rw [if_pos hok] at hout
      exact absurd hout (by simp)
    · rw [if_neg hok] at hout ⊢
      by_cases hz : fuel = 0
      · rw [if_pos hz] at hout ⊢
        subst hz
        show (runAttempt (env a) fs).fs = afterN env 1 a fs
        rfl
      · rw [if_neg hz] at hout ⊢
        have hrec := ih (a + 1) (runAttempt (env a) fs).fs hout
        show (go env fuel (a + 1) (runAttempt (env a) fs).fs).fs = afterN env (fuel + 1) a fs
        rw [hrec]
        rfl

theorem go_chain (env : Nat → AttemptBehavior) :
    ∀ (fuel a : Nat) (fs : Option (List Nat)),
      (go env fuel a fs).restarted = false →
        chainFrom (sizeFs fs) (go env fuel a fs).events = true ∧
          sizeFs ((go env fuel a fs).fs) = lastD (go env fuel a fs).events (sizeFs fs) := by
  intro fuel
  induction fuel with
  | zero => intro a fs _; exact ⟨rfl, rfl⟩
  | succ fuel ih =>
    intro a fs hres
    rw [go_succ] at hres ⊢
    by_cases hok : (runAttempt (env a) fs).ok = true
    · rw [if_pos hok] at hres ⊢
      exact runAttempt_chain (env a) fs hres
    · rw [if_neg hok] at hres ⊢
      by_cases hz : fuel = 0
      · rw [if_pos hz] at hres ⊢
        exact runAttempt_chain (env a) fs hres
      · rw [if_neg hz] at hres ⊢
        have hres2 : (runAttempt (env a) fs).restart = false ∧
            (go env fuel (a + 1) (runAttempt (env a) fs).fs).restarted = false := by
          have hor : ((runAttempt (env a) fs).restart ||
              (go env fuel (a + 1) (runAttempt (env a) fs).fs).restarted) = false := hres
          simpa [Bool.or_eq_false_iff] using hor
        rcases hres2 with ⟨hr1, hr2⟩
        rcases runAttempt_chain (env a) fs hr1 with ⟨c1, e1⟩
        rcases ih (a + 1) (runAttempt (env a) fs).fs hr2 with ⟨c2, e2⟩
        constructor
        · show chainFrom (sizeFs fs) ((runAttempt (env a) fs).events ++
            (go env fuel (a + 1) (runAttempt (env a) fs).fs).events) = true
          exact chainFrom_append c1 (by rw [← e1]; exact c2)
        · show sizeFs (go env fuel (a + 1) (runAttempt (env a) fs).fs).fs =
            lastD ((runAttempt (env a) fs).events ++
              (go env fuel (a + 1) (runAttempt (env a) fs).fs).events) (sizeFs fs)
          rw [lastD_append, ← e1]
          exact e2

theorem runAttempt_events_chain (b : AttemptBehavior) (fs : Option (List Nat)) :
    nondecreasing (runAttempt b fs).events = true := by
  cases b with
  | transportError => rfl
  | ok r =>
    by_cases hs : 400 ≤ r.status
    · simp [runAttempt, hs, nondecreasing, chainFrom]
    · simp only [runAttempt, if_neg hs, nondecreasing]
      exact chainFrom_mono (Nat.zero_le _) (chainFrom_streamEvents r.chunks _)

end LoopLemmas

/-- C2: the attempt loop of `download_file` executes at most
`max_retries + 1` attempts, and when every attempt fails it terminates with a
Failure outcome after exactly `max_retries + 1` attempts. -/
theorem claim_C2 (env : Nat → AttemptBehavior) (fs0 : Option (List Nat)) (mr : Nat)
    (h : ∀ i fs, (runAttempt (env i) fs).ok = false) :
    (download_file env fs0 mr).outcome = .failure ∧
      (download_file env fs0 mr).attempts = mr + 1 ∧
      ∀ (env2 : Nat → AttemptBehavior) (fs2 : Option (List Nat)),
        (download_file env2 fs2 mr).attempts ≤ mr + 1 := by
  rcases go_allFail env h mr 0 fs0 with ⟨h1, h2⟩
  exact ⟨h1, h2, fun env2 fs2 => go_attempts_le env2 (mr + 1) 0 fs2⟩

theorem claim_C2_witness :
    (download_file (fun _ => AttemptBehavior.transportError) none 2).outcome = Outcome.failure ∧
      (download_file (fun _ => AttemptBehavior.transportError) none 2).attempts = 3 :=
  ⟨(claim_C2 (fun _ => AttemptBehavior.transportError) none 2 (fun _ _ => rfl)).1,
    (claim_C2 (fun _ => AttemptBehavior.transportError) none 2 (fun _ _ => rfl)).2.1⟩

/-- C3: on a resumed attempt (non-empty destination file, so a Range header is
sent), a 200 response makes `download_file` discard `local_size`, switch to
truncating write mode and restart from byte zero within the same attempt, so
the attempt succeeds with the file equal to the full fresh response body (the
concatenation of the delivered chunks), not a concatenation of old and new
bytes; the progress values also restart from zero. -/
theorem claim_C3 (c : List Nat) (r : Resp) (h1 : c ≠ []) (h2 : r.status = 200)
    (h3 : r.streamError = false) :
    runAttempt (.ok r) (some c) =
      ⟨true, some r.chunks.flatten, streamEvents 0 r.chunks, true⟩ := by
  have hlen : 0 < c.length := List.length_pos.mpr h1
  simp [runAttempt, h2, h3, sizeFs, hlen]

theorem claim_C3_witness :
    runAttempt (.ok ⟨200, none, [[1, 2]], false⟩) (some [5]) =
      ⟨true, some [1, 2], [2], true⟩ := by
  have := claim_C3 [5] ⟨200, none, [[1, 2]], false⟩ (by decide) rfl rfl
  simpa using this

/-- C7: when `download_file` ends in Failure, the destination file is exactly
the file produced by the executed attempts — no cleanup or deletion happens on
the failure path — and in particular a file that existed before the invocation
still exists afterwards. -/
theorem claim_C7 (env : Nat → AttemptBehavior) (c : List Nat) (mr : Nat)
    (h : (download_file env (some c) mr).outcome = .failure) :
    (download_file env (some c) mr).fs = afterN env (mr + 1) 0 (some c) ∧
      ((download_file env (some c) mr).fs).isSome = true := by
  have heq : (download_file env (some c) mr).fs = afterN env (mr + 1) 0 (some c) :=
    go_failure_fs env (mr + 1) 0 (some c) h
  refine ⟨heq, ?_⟩
  rw [heq]
  exact afterN_isSome env (mr + 1) 0 (some c) rfl

theorem claim_C7_witness :
    (download_file (fun _ => AttemptBehavior.transportError) (some [1]) 0).fs =
        afterN (fun _ => AttemptBehavior.transportError) 1 0 (some [1]) ∧
      ((download_file (fun _ => AttemptBehavior.transportError) (some [1]) 0).fs).isSome = true :=
  claim_C7 (fun _ => AttemptBehavior.transportError) [1] 0 (by decide)

/-- C9: a response with status >= 400 raises before the destination file is
opened, leaving the file state untouched for that attempt; hence when the
destination file does not exist and the server answers every attempt with an
error status, the terminal Failure leaves no file on disk. -/
theorem claim_C9 (env : Nat → AttemptBehavior) (mr : Nat)
    (h : ∀ i, errStatus (env i) = true) :
    (∀ (r : Resp) (fs : Option (List Nat)), 400 ≤ r.status →
        runAttempt (.ok r) fs = ⟨false, fs, [], false⟩) ∧
      (download_file env none mr).outcome = .failure ∧
      (download_file env none mr).fs = none := by
  have hattempt : ∀ (r : Resp) (fs : Option (List Nat)), 400 ≤ r.status →
      runAttempt (.ok r) fs = ⟨false, fs, [], false⟩ := by
    intro r fs hr
    simp [runAttempt, hr]
  have hfail : ∀ i fs, (runAttempt (env i) fs).ok = false := by
    intro i fs
    have hi := h i
    cases hb : env i with
    | transportError => simp [runAttempt]
    | ok r =>
      rw [hb] at hi
      simp only [errStatus, decide_eq_true_eq] at hi
      rw [hattempt r fs hi]
  have hfs : ∀ i fs, (runAttempt (env i) fs).fs = fs := by
    intro i fs
    have hi := h i
    cases hb : env i with
    | transportError => simp [runAttempt]
    | ok r =>
      rw [hb] at hi
      simp only [errStatus, decide_eq_true_eq] at hi
      rw [hattempt r fs hi]
  refine ⟨hattempt, (go_allFail env hfail mr 0 none).1, ?_⟩
  have hafter : ∀ (n a : Nat), afterN env n a none = none := by
    intro n
    induction n with
    | zero => intro a; rfl
    | succ n ih => intro a; simp [afterN, hfs a none, ih]
  have heq : (download_file env none mr).fs = afterN env (mr + 1) 0 none :=
    go_failure_fs env (mr + 1) 0 none (go_allFail env hfail mr 0 none).1
  rw [heq]
  exact hafter (mr + 1) 0

theorem claim_C9_witness :
    (download_file (fun _ => AttemptBehavior.ok ⟨404, none, [], false⟩) none 1).outcome =
        Outcome.failure ∧
      (download_file (fun _ => AttemptBehavior.ok ⟨404, none, [], false⟩) none 1).fs = none :=
  ⟨(claim_C9 (fun _ => AttemptBehavior.ok ⟨404, none, [], false⟩) 1 (fun _ => rfl)).2.1,
    (claim_C9 (fun _ => AttemptBehavior.ok ⟨404, none, [], false⟩) 1 (fun _ => rfl)).2.2⟩

/-- C6 counterexample: the progress values of a single `download_file`
invocation are not monotonically non-decreasing — a server-ignored-Range
restart is exposed to the observer as a decrease (3 then 1). -/
theorem claim_C6_cex :
    (download_file envC6 none 3).events = [3, 1] ∧
      (download_file envC6 none 3).outcome = Outcome.success ∧
      nondecreasing ((download_file envC6 none 3).events) = false := by
  decide

/-- C6 (amended): within one `download_file` invocation the progress values
are monotonically non-decreasing whenever no server-ignored-Range restart
occurs during the invocation; and the values emitted within any single
attempt are always non-decreasing (a restart only resets the sequence between
the baseline of the old attempt and the fresh count of the new one). -/
theorem claim_C6 (env : Nat → AttemptBehavior) (fs0 : Option (List Nat)) (mr : Nat)
    (h : (download_file env fs0 mr).restarted = false) :
    nondecreasing ((download_file env fs0 mr).events) = true ∧
      ∀ (b : AttemptBehavior) (fs : Option (List Nat)),
        nondecreasing (runAttempt b fs).events = true := by
  constructor
  · exact chainFrom_mono (Nat.zero_le _) (go_chain env (mr + 1) 0 fs0 h).1
  · exact runAttempt_events_chain

theorem claim_C6_witness :
    nondecreasing ((download_file (fun _ => AttemptBehavior.ok ⟨200, none, [[1], [2]], false⟩)
      none 0).events) = true :=
  (claim_C6 (fun _ => AttemptBehavior.ok ⟨200, none, [[1], [2]], false⟩) none 0 (by decide)).1

section SanitizerLemmas

theorem dropWhile_head_false (p : Char → Bool) :
    ∀ (l : List Char) (c : Char) (t : List Char), l.dropWhile p = c :: t → p c = false := by
  intro l
  induction l with
  | nil => intro c t h; simp [List.dropWhile] at h
  | cons x xs ih =>
    intro c t h
    rw [List.dropWhile_cons] at h
    by_cases hp : p x = true
    · rw [if_pos hp] at h
      exact ih c t h
    · rw [if_neg hp] at h
      injection h with h1 _
      subst h1
      exact Bool.eq_false_iff.mpr hp

theorem dropWhile_mem (p : Char → Bool) :
    ∀ (l : List Char) (c : Char), c ∈ l.dropWhile p → c ∈ l := by
  intro l
  induction l with
  | nil => intro c h; simp at h
  | cons x xs ih =>
    intro c h
    rw [List.dropWhile_cons] at h
    by_cases hp : p x = true
    · rw [if_pos hp] at h
      exact List.mem_cons_of_mem x (ih c h)
    · rw [if_neg hp] at h
      exact h

theorem dropTrailingWhile_head (p : Char → Bool) :
    ∀ (l : List Char) (c : Char) (t : List Char),
      dropTrailingWhile p l = c :: t → ∃ t0, l = c :: t0 := by
  intro l
  cases l with
  | nil => intro c t h; simp [dropTrailingWhile] at h
  | cons x xs =>
    intro c t h
    rw [dropTrailingWhile] at h
    cases hd : dropTrailingWhile p xs with
    | nil =>
      rw [hd] at h
      by_cases hp : p x = true
      · rw [if_pos hp] at h
        cases h
      · rw [if_neg hp] at h
        injection h with h1 _
        exact ⟨xs, by rw [h1]⟩
    | cons d ds =>
      rw [hd] at h
      injection h with h1 _
      exact ⟨xs, by rw [h1]⟩

theorem dropTrailingWhile_last (p : Char → Bool) :
    ∀ (l : List Char) (c : Char),
      (dropTrailingWhile p l).getLast? = some c → p c = false := by
  intro l
  induction l with
  | nil => intro c h; simp [dropTrailingWhile] at h
  | cons x xs ih =>
    intro c h
    rw [dropTrailingWhile] at h
    cases hd : dropTrailingWhile p xs with
    | nil =>
      rw [hd] at h
      by_cases hp : p x = true
      · rw [if_pos hp] at h
        simp at h
      · rw [if_neg hp] at h
        simp only [List.getLast?_singleton, Option.some.injEq] at h
        subst h
        exact Bool.eq_false_iff.mpr hp
    | cons d ds =>
      rw [hd] at h
      rw [List.getLast?_cons_cons] at h
      exact ih c (by rw [hd]; exact h)

theorem dropTrailingWhile_mem (p : Char → Bool) :
    ∀ (l : List Char) (c : Char), c ∈ dropTrailingWhile p l → c ∈ l := by
  intro l
  induction l with
  | nil => intro c h; simp [dropTrailingWhile] at h
  | cons x xs ih =>
    intro c h
    rw [dropTrailingWhile] at h
    cases hd : dropTrailingWhile p xs with
    | nil =>
      rw [hd] at h
      by_cases hp : p x = true
      · rw [if_pos hp] at h
        simp at h
      · rw [if_neg hp] at h
        simp only [List.mem_singleton] at h
        rw [h]
        exact List.mem_cons_self _ _
    | cons d ds =>
      rw [hd] at h
      rcases List.mem_cons.mp h with h1 | h2
      · rw [h1]; exact List.mem_cons_self _ _
      · exact List.mem_cons_of_mem x (ih c (by rw [hd]; exact h2))

theorem stripBoth_head (p : Char → Bool) (l : List Char) (c : Char) (t : List Char)
    (h : stripBoth p l = c :: t) : p c = false := by
  rcases dropTrailingWhile_head p _ c t h with ⟨t0, h0⟩
  exact dropWhile_head_false p l c t0 h0

theorem stripBoth_last (p : Char → Bool) (l : List Char) (c : Char)
    (h : (stripBoth p l).getLast? = some c) : p c = false :=
  dropTrailingWhile_last p _ c h

theorem stripBoth_mem (p : Char → Bool) (l : List Char) (c : Char)
    (h : c ∈ stripBoth p l) : c ∈ l :=
  dropWhile_mem p l c (dropTrailingWhile_mem p _ c h)

theorem pyBasename_go (l : List Char) :
    ∀ (acc : List Char), (∀ c ∈ acc, c ≠ '/') →
      ∀ c ∈ l.foldl (fun acc c => if c == '/' then [] else acc ++ [c]) acc, c ≠ '/' := by
  induction l with
  | nil => intro acc hacc c hc; exact hacc c hc
  | cons x xs ih =>
    intro acc hacc c hc
    rw [List.foldl_cons] at hc
    by_cases hx : (x == '/') = true
    · rw [if_pos hx] at hc
      exact ih [] (by simp) c hc
    · rw [if_neg hx] at hc
      refine ih (acc ++ [x]) ?_ c hc
      intro d hd
      rcases List.mem_append.mp hd with h1 | h2
      · exact hacc d h1
      · have hdx : d = x := by simpa using h2
        subst hdx
        intro he
        exact hx (by rw [he]; exact beq_self_eq_true _)

theorem pyBasename_ne_slash (l : List Char) : ∀ c ∈ pyBasename l, c ≠ '/' :=
  pyBasename_go l [] (by simp)

theorem replaceSep_ne (c : Char) : replaceSep c ≠ '/' := by
  unfold replaceSep
  by_cases h : c = '/'
  · simp [h]
  · rw [if_neg (by simpa using h)]
    exact h

theorem digitChar_mem_hexDigits : ∀ m : Nat, m < 16 → Nat.digitChar m ∈ hexDigits := by
  decide

theorem uuidHex8_mem (seed : Nat) : ∀ c ∈ uuidHex8 seed, c ∈ hexDigits := by
  intro c hc
  rcases List.mem_map.mp hc with ⟨i, _, rfl⟩
  exact digitChar_mem_hexDigits _ (Nat.mod_lt _ (by norm_num))

theorem uuidHex8_length (seed : Nat) : (uuidHex8 seed).length = 8 := by
  simp [uuidHex8]

theorem hexDigits_avoid : ∀ c ∈ hexDigits, c ≠ '/' ∧ c ≠ '.' ∧ c ≠ ' ' := by
  decide

theorem fallbackName_avoid (seed : Nat) :
    ∀ c ∈ fallbackName seed, c ≠ '/' ∧ c ≠ '.' ∧ c ≠ ' ' := by
  intro c hc
  simp only [fallbackName, List.mem_cons] at hc
  rcases hc with rfl | rfl | rfl | rfl | rfl | rfl | rfl | rfl | rfl | hc
  · exact ⟨by decide, by decide, by decide⟩
  · exact ⟨by decide, by decide, by decide⟩
  · exact ⟨by decide, by decide, by decide⟩
  · exact ⟨by decide, by decide, by decide⟩
  · exact ⟨by decide, by decide, by decide⟩
  · exact ⟨by decide, by decide, by decide⟩
  · exact ⟨by decide, by decide, by decide⟩
  · exact ⟨by decide, by decide, by decide⟩
  · exact ⟨by decide, by decide, by decide⟩
  · exact hexDigits_avoid c (uuidHex8_mem seed c hc)

theorem goodName_iff (n : List Char) :
    GoodName n = true ↔
      (n ≠ [] ∧ (∀ c ∈ n, c ≠ '/') ∧ n ≠ ['.'] ∧ n ≠ ['.', '.']) := by
  simp [GoodName, List.all_eq_true, and_assoc]

theorem fallbackName_good (seed : Nat) : GoodName (fallbackName seed) = true := by
  rw [goodName_iff]
  refine ⟨by simp [fallbackName], ?_, ?_, ?_⟩
  · intro c hc
    exact (fallbackName_avoid seed c hc).1
  · intro h
    rw [fallbackName] at h
    injection h with h1 _
    exact absurd h1 (by decide)
  · intro h
    rw [fallbackName] at h
    injection h with h1 _
    exact absurd h1 (by decide)

theorem sanitize_filename_cases (seed : Nat) (name : List Char) :
    sanitize_filename seed name = fallbackName seed ∨
      (sanitize_filename seed name =
          stripBoth isDotSpace (stripBoth isPyWs ((pyBasename (unquote name)).map replaceSep)) ∧
        sanitize_filename seed name ≠ []) := by
  by_cases h0 : name = []
  · left
    simp [sanitize_filename, h0]
  · have heq : sanitize_filename seed name =
        (if stripBoth isDotSpace
            (stripBoth isPyWs ((pyBasename (unquote name)).map replaceSep)) = []
         then fallbackName seed
         else stripBoth isDotSpace
            (stripBoth isPyWs ((pyBasename (unquote name)).map replaceSep))) := by
      simp only [sanitize_filename, if_neg h0]
    rw [heq]
    by_cases h5 : stripBoth isDotSpace
        (stripBoth isPyWs ((pyBasename (unquote name)).map replaceSep)) = []
    · left
      rw [if_pos h5]
    · right
      rw [if_neg h5]
      exact ⟨rfl, h5⟩

theorem sanitize_ne_slash (seed : Nat) (name : List Char) :
    ∀ c ∈ sanitize_filename seed name, c ≠ '/' := by
  intro c hc
  rcases sanitize_filename_cases seed name with h | ⟨h, _⟩
  · rw [h] at hc
    exact (fallbackName_avoid seed c hc).1
  · rw [h] at hc
    have hc3 := stripBoth_mem _ _ _ (stripBoth_mem _ _ _ hc)
    rcases List.mem_map.mp hc3 with ⟨d, _, rfl⟩
    exact replaceSep_ne d

theorem sanitize_head (seed : Nat) (name : List Char) (c : Char) (t : List Char)
    (h : sanitize_filename seed name = c :: t) : c ≠ '.' ∧ c ≠ ' ' := by
  rcases sanitize_filename_cases seed name with hf | ⟨he, _⟩
  · rw [hf, fallbackName] at h
    injection h with h1 _
    subst h1
    exact ⟨by decide, by decide⟩
  · rw [he] at h
    have hds := stripBoth_head isDotSpace _ c t h
    constructor
    · intro hcc; subst hcc; simp [isDotSpace] at hds
    · intro hcc; subst hcc; simp [isDotSpace] at hds

theorem getLast?_mem_chars : ∀ (l : List Char) (c : Char), l.getLast? = some c → c ∈ l := by
  intro l
  induction l with
  | nil => intro c h; simp at h
  | cons x xs ih =>
    intro c h
    cases xs with
    | nil =>
      simp only [List.getLast?_singleton, Option.some.injEq] at h
      rw [← h]
      exact List.mem_singleton_self _
    | cons y ys =>
      rw [List.getLast?_cons_cons] at h
      exact List.mem_cons_of_mem x (ih c h)

theorem sanitize_last (seed : Nat) (name : List Char) (c : Char)
    (h : (sanitize_filename seed name).getLast? = some c) : c ≠ '.' ∧ c ≠ ' ' := by
  rcases sanitize_filename_cases seed name with hf | ⟨he, _⟩
  · rw [hf] at h
    have hc := getLast?_mem_chars _ c h
    exact ⟨(fallbackName_avoid seed c hc).2.1, (fallbackName_avoid seed c hc).2.2⟩
  · rw [he] at h
    have hds := stripBoth_last isDotSpace _ c h
    constructor
    · intro hcc; subst hcc; simp [isDotSpace] at hds
    · intro hcc; subst hcc; simp [isDotSpace] at hds

theorem sanitize_nonempty (seed : Nat) (name : List Char) :
    sanitize_filename seed name ≠ [] := by
  rcases sanitize_filename_cases seed name with h | ⟨_, h2⟩
  · rw [h, fallbackName]
    simp
  · exact h2

theorem sanitize_good (seed : Nat) (name : List Char) :
    GoodName (sanitize_filename seed name) = true := by
  rw [goodName_iff]
  refine ⟨sanitize_nonempty seed name, sanitize_ne_slash seed name, ?_, ?_⟩
  · intro h
    exact (sanitize_head seed name '.' [] h).1 rfl
  · intro h
    exact (sanitize_head seed name '.' ['.'] h).1 rfl

end SanitizerLemmas

/-- C4 counterexample: `sanitize_filename` applied to the name `.⟨tab⟩.`
returns the single tab character, which has leading (and trailing)
whitespace, contradicting the claim that the result never has leading or
trailing whitespace: `strip()` runs before `strip('. ')`, so whitespace
uncovered by removing the dots is not stripped. -/
theorem claim_C4_cex :
    sanitize_filename 0 ['.', '\t', '.'] = ['\t'] ∧ isPyWs '\t' = true := by
  decide

/-- C4 (amended): for every input, `sanitize_filename` returns a non-empty
name with no path separators and no leading or trailing dots or space
characters (whitespace other than the space character can survive at an end
when it was shielded by dots, since `strip()` runs before `strip('. ')`);
percent-encoding is decoded before the other steps; an empty input yields the
random fallback name `download_` followed by 8 lowercase hex characters. -/
theorem claim_C4 (seed : Nat) (name : List Char) :
    sanitize_filename seed name ≠ [] ∧
      (∀ c ∈ sanitize_filename seed name, c ≠ '/') ∧
      (∀ (c : Char) (t : List Char), sanitize_filename seed name = c :: t →
        c ≠ '.' ∧ c ≠ ' ') ∧
      (∀ c : Char, (sanitize_filename seed name).getLast? = some c →
        c ≠ '.' ∧ c ≠ ' ') ∧
      sanitize_filename seed [] = fallbackName seed ∧
      (uuidHex8 seed).length = 8 ∧
      (∀ c ∈ uuidHex8 seed, c ∈ hexDigits) :=
  ⟨sanitize_nonempty seed name, sanitize_ne_slash seed name,
    fun c t h => sanitize_head seed name c t h,
    fun c h => sanitize_last seed name c h,
    rfl, uuidHex8_length seed, uuidHex8_mem seed⟩

theorem claim_C4_witness :
    sanitize_filename 3 (chars ("a.txt")) ≠ [] ∧
      sanitize_filename 3 (chars ("a.txt")) = chars ("a.txt") :=
  ⟨(claim_C4 3 (chars ("a.txt"))).1, by decide⟩

section PathLemmas

theorem splitP_ne_nil : ∀ l : List Char, splitP l ≠ [] := by
  intro l
  cases l with
  | nil => simp [splitP]
  | cons c rest =>
    by_cases hc : (c == '/') = true
    · simp [splitP, hc]
    · cases hs : splitP rest with
      | nil => simp [splitP, hc, hs]
      | cons s ss => simp [splitP, hc, hs]

theorem splitP_no_slash : ∀ n : List Char, (∀ c ∈ n, c ≠ '/') → splitP n = [n] := by
  intro n
  induction n with
  | nil => intro _; rfl
  | cons c rest ih =>
    intro h
    have hc : (c == '/') = false :=
      beq_eq_false_iff_ne.mpr (h c (List.mem_cons_self _ _))
    have hrest : splitP rest = [rest] :=
      ih (fun d hd => h d (List.mem_cons_of_mem c hd))
    simp [splitP, hc, hrest]

theorem splitP_append : ∀ s t : List Char, splitP (s ++ '/' :: t) = splitP s ++ splitP t := by
  intro s
  induction s with
  | nil => intro t; simp [splitP]
  | cons c s ih =>
    intro t
    by_cases hc : (c == '/') = true
    · simp [splitP, hc, ih]
    · cases hs : splitP s with
      | nil => exact absurd hs (splitP_ne_nil s)
      | cons x xs =>
        have h2 := ih t
        rw [hs] at h2
        simp [splitP, hc, h2, hs]

theorem normParts_append_one (xs : List (List Char)) (c : List Char) :
    normParts (xs ++ [c]) = normStep (normParts xs) c := by
  simp [normParts, List.foldl_append]

theorem normStep_good (acc : List (List Char)) (c : List Char)
    (h : GoodName c = true) : normStep acc c = acc ++ [c] := by
  rcases (goodName_iff c).mp h with ⟨h1, _, h3, h4⟩
  rw [normStep, if_neg (by simp [h1, h3]), if_neg h4]

theorem normStep_empty (acc : List (List Char)) : normStep acc [] = acc := by
  simp [normStep]

theorem isAbs_append (d n : List Char) (h : d ≠ []) : isAbs (d ++ n) = isAbs d := by
  cases d with
  | nil => exact absurd rfl h
  | cons c cs => simp [isAbs, List.cons_append]

theorem goodName_not_isAbs (n : List Char) (h : GoodName n = true) : isAbs n = false := by
  rcases (goodName_iff n).mp h with ⟨h1, h2, _, _⟩
  cases n with
  | nil => exact absurd rfl h1
  | cons c cs =>
    show (c == '/') = false
    exact beq_eq_false_iff_ne.mpr (h2 c (List.mem_cons_self _ _))

/-- Joining a usable component under any directory string and resolving to an
absolute path appends exactly that component to the directory's absolute
path: the destination is strictly inside the directory. -/
theorem abspath_join (cwd : List (List Char)) (dd n : List Char)
    (h : GoodName n = true) :
    abspath cwd (joinPath dd n) = abspath cwd dd ++ [n] := by
  rcases (goodName_iff n).mp h with ⟨hne, hmem, hdot, hddot⟩
  have hAbs : isAbs n = false := goodName_not_isAbs n h
  have hAbs' : ¬ isAbs n = true := by simp [hAbs]
  have hsplit : splitP n = [n] := splitP_no_slash n hmem
  by_cases hd : dd = []
  · subst hd
    rw [joinPath, if_neg hAbs', if_pos rfl]
    rw [abspath, abspath, if_neg hAbs']
    show normParts (cwd ++ splitP n) = normParts (cwd ++ splitP []) ++ [n]
    rw [hsplit]
    show normParts (cwd ++ [n]) = normParts (cwd ++ [[]]) ++ [n]
    rw [normParts_append_one, normParts_append_one, normStep_empty,
      normStep_good _ _ h]
  · by_cases hlast : dd.getLast? = some '/'
    · have hdd : dd.dropLast ++ ['/'] = dd :=
        List.dropLast_append_getLast? '/' hlast
      have hjoin : joinPath dd n = dd.dropLast ++ '/' :: n := by
        rw [joinPath, if_neg hAbs', if_neg hd, if_pos hlast, ← hdd]
        simp
      have hsdd : splitP dd = splitP dd.dropLast ++ [[]] := by
        conv =>
          lhs
          rw [← hdd]
        rw [show (dd.dropLast ++ ['/'] : List Char) = dd.dropLast ++ '/' :: [] from rfl]
        rw [splitP_append]
        rfl
      have habs : isAbs (joinPath dd n) = isAbs dd := by
        rw [joinPath, if_neg hAbs', if_neg hd, if_pos hlast]
        exact isAbs_append dd n hd
      rw [abspath, abspath, habs, hjoin]
      rw [show (dd.dropLast ++ '/' :: n : List Char) = dd.dropLast ++ '/' :: n from rfl]
      rw [splitP_append, hsplit, hsdd]
      rw [← List.append_assoc, ← List.append_assoc]
      rw [normParts_append_one, normParts_append_one, normStep_empty,
        normStep_good _ _ h]
    · have hjoin : joinPath dd n = dd ++ '/' :: n := by
        rw [joinPath, if_neg hAbs', if_neg hd, if_neg hlast]
      have habs : isAbs (joinPath dd n) = isAbs dd := by
        rw [hjoin]
        exact isAbs_append dd _ hd
      rw [abspath, abspath, habs, hjoin, splitP_append, hsplit]
      rw [← List.append_assoc]
      rw [normParts_append_one, normStep_good _ _ h]

theorem lcp_self_append : ∀ A l : List (List Char), lcp A (A ++ l) = A := by
  intro A
  induction A with
  | nil => intro l; cases l <;> rfl
  | cons a as ih => intro l; simp [lcp, ih]

/-- With a usable component, the containment re-check of lines 198-201 never
fires: the joined path's absolute form extends the directory's. -/
theorem escapeCheck_join_good (cwd : List (List Char)) (dd n : List Char)
    (h : GoodName n = true) : escapeCheck cwd dd (joinPath dd n) = false := by
  rw [escapeCheck, abspath_join cwd dd n h, lcp_self_append]
  simp

end PathLemmas

/-- C1: for every current working directory, download directory, raw filename
(URL basename or explicit hint) and random seeds, the destination path that
`download_file` opens resolves to a location strictly inside the download
directory: its absolute path is the directory's absolute path extended by the
final filename, which is a non-empty separator-free component; and whenever
the containment check on the sanitized name fails, the sanitized name is
discarded for the random fallback name. -/
theorem claim_C1 (cwd : List (List Char)) (dd rawName : List Char) (seedS seedF : Nat) :
    abspath cwd (resolveDestination cwd dd rawName seedS seedF).2 =
        abspath cwd dd ++ [(resolveDestination cwd dd rawName seedS seedF).1] ∧
      GoodName (resolveDestination cwd dd rawName seedS seedF).1 = true ∧
      (resolveDestination cwd dd rawName seedS seedF).1 =
        (if escapeCheck cwd dd (joinPath dd (sanitize_filename seedS rawName))
         then fallbackName seedF else sanitize_filename seedS rawName) := by
  have hgs := sanitize_good seedS rawName
  have hgf := fallbackName_good seedF
  by_cases hesc : escapeCheck cwd dd (joinPath dd (sanitize_filename seedS rawName)) = true
  · have hr : resolveDestination cwd dd rawName seedS seedF =
        (fallbackName seedF, joinPath dd (fallbackName seedF)) := by
      simp [resolveDestination, hesc]
    rw [hr]
    exact ⟨abspath_join cwd dd _ hgf, hgf, by rw [if_pos hesc]⟩
  · have hr : resolveDestination cwd dd rawName seedS seedF =
        (sanitize_filename seedS rawName, joinPath dd (sanitize_filename seedS rawName)) := by
      simp [resolveDestination, hesc]
    rw [hr]
    exact ⟨abspath_join cwd dd _ hgs, hgs, by rw [if_neg hesc]⟩

/-- C10: the filename `download_multiple_files` passes to `status_callback`
is the raw `os.path.basename(url)` computed before sanitization (with a
random fallback only when the basename is empty), while `progress_callback`
and the on-disk file use the sanitized name; for a URL with a percent-encoded
basename the two differ, e.g. `http://h/a%20b` reports status under `a%20b`
but writes and reports progress under `a b`. -/
theorem claim_C10 (cwd : List (List Char)) (dd url : List Char)
    (env : Nat → AttemptBehavior) (fs0 : Option (List Nat)) (mr : Nat) (s1 s2 s3 : Nat) :
    (download_with_semaphore cwd dd url env fs0 mr s1 s2 s3).statusArg =
        (if pyBasename url = [] then fallbackName s1 else pyBasename url) ∧
      (download_with_semaphore cwd dd url env fs0 mr s1 s2 s3).progressName =
        sanitize_filename s2
          ((download_with_semaphore cwd dd url env fs0 mr s1 s2 s3).statusArg) ∧
      (download_with_semaphore [] (chars ("downloads")) (chars ("http://h/a%20b"))
          (fun _ => AttemptBehavior.transportError) none 0 0 0 0).statusArg ≠
        (download_with_semaphore [] (chars ("downloads")) (chars ("http://h/a%20b"))
          (fun _ => AttemptBehavior.transportError) none 0 0 0 0).progressName := by
  refine ⟨rfl, ?_, by decide⟩
  have hng := sanitize_good s2 (if pyBasename url = [] then fallbackName s1 else pyBasename url)
  show (resolveDestination cwd dd
      (if pyBasename url = [] then fallbackName s1 else pyBasename url) s2 s3).1 =
    sanitize_filename s2 (if pyBasename url = [] then fallbackName s1 else pyBasename url)
  simp [resolveDestination, escapeCheck_join_good cwd dd _ hng]

/-- C5 counterexample: a HEAD response with status 405 and no headers yields
no decisive header, yet `is_url_downloadable` returns not-downloadable with
the HEAD status as reason instead of falling through to the GET probe (whose
classification here would be downloadable via content-disposition): the
status >= 400 check on a completed HEAD precedes any fall-through. -/
theorem claim_C5_cex :
    decisiveHead ⟨405, none, none, none⟩ = false ∧
      blockedHost (lowerList (chars ("example.com"))) = false ∧
      is_url_downloadable (chars ("example.com")) (Except.ok ⟨405, none, none, none⟩)
          ⟨200, none, some (chars ("attachment")), none⟩ =
        (false, Reason.headStatus 405) ∧
      getProbe ⟨200, none, some (chars ("attachment")), none⟩ =
        (true, Reason.getHasDisp) ∧
      is_url_downloadable (chars ("example.com")) (Except.ok ⟨405, none, none, none⟩)
          ⟨200, none, some (chars ("attachment")), none⟩ ≠
        getProbe ⟨200, none, some (chars ("attachment")), none⟩ := by
  decide

/-- C5 (amended): for a non-blocklisted host, if the HEAD request raises
(disallowed method surfacing as an exception, timeout, or any transport
error), or completes with a status below 400 but no decisive header (no
truthy content-length or content-disposition and no non-empty non-HTML
content-type), then `is_url_downloadable` falls through to the GET request
with header `Range: bytes=0-0` and classifies the URL from that probe's
status and headers; a HEAD that completes with status >= 400 instead returns
not-downloadable directly. -/
theorem claim_C5 (host : List Char) (head : Except Unit ProbeResp) (get : ProbeResp)
    (h1 : blockedHost (lowerList host) = false) (h2 : ambiguousHead head = true) :
    is_url_downloadable host head get = getProbe get := by
  cases head with
  | error e => simp [is_url_downloadable, h1]
  | ok r =>
    simp only [ambiguousHead, Bool.and_eq_true, decide_eq_true_eq] at h2
    rcases h2 with ⟨hst, hdec⟩
    have hd : truthy r.contentDisposition = false ∧ truthy r.contentLength = false ∧
        ctypeNonHtml r = false := by
      have : decisiveHead r = false := by
        cases hb : decisiveHead r
        · rfl
        · rw [hb] at hdec; cases hdec
      simpa [decisiveHead, Bool.or_eq_false_iff, and_assoc] using this
    have hnle : ¬ 400 ≤ r.status := by omega
    simp [is_url_downloadable, h1, hnle, hd.1, hd.2.1, hd.2.2]

theorem claim_C5_witness :
    is_url_downloadable (chars ("example.com")) (Except.error ()) ⟨200, none, none, none⟩ =
      getProbe ⟨200, none, none, none⟩ :=
  claim_C5 (chars ("example.com")) (Except.error ()) ⟨200, none, none, none⟩
    (by decide) rfl

section SemaphoreLemmas

theorem countActive_replicate (n : Nat) :
    countActive (List.replicate n TaskPhase.waiting) = 0 := by
  induction n with
  | zero => rfl
  | succ n ih =>
    simp only [countActive, List.replicate_succ, List.countP_cons] at ih ⊢
    simp [ih]

/-- Invariant of the semaphore gate: active invocations plus the counter
always equal the initial capacity. -/
theorem semReachable_inv {M n : Nat} {s : SemState} (h : SemReachable M n s) :
    countActive s.tasks + s.sem = M := by
  induction h with
  | init => simp [countActive_replicate]
  | step hr hstep ih =>
    cases hstep with
    | acquire s l r hs =>
      simp only [countActive, List.countP_append, List.countP_cons,
        show (TaskPhase.waiting == TaskPhase.active) = false from rfl,
        show (TaskPhase.active == TaskPhase.active) = true from rfl,
        Bool.false_eq_true, eq_self_iff_true, if_true, if_false] at ih ⊢
      omega
    | release s l r =>
      simp only [countActive, List.countP_append, List.countP_cons,
        show (TaskPhase.done == TaskPhase.active) = false from rfl,
        show (TaskPhase.active == TaskPhase.active) = true from rfl,
        Bool.false_eq_true, eq_self_iff_true, if_true, if_false] at ih ⊢
      omega

end SemaphoreLemmas

/-- C8: in every reachable state of a `download_multiple_files` run over any
list of URLs, at most `max_concurrent` Transfer Engine invocations
(`download_file` calls inside `async with semaphore`) are active
simultaneously; the remaining tasks wait for a slot. -/
theorem claim_C8 (M n : Nat) (s : SemState) (h : SemReachable M n s) :
    countActive s.tasks ≤ M := by
  have := semReachable_inv h
  omega

theorem claim_C8_witness :
    countActive [TaskPhase.active, TaskPhase.active, TaskPhase.waiting] ≤ 2 :=
  claim_C8 2 3 ⟨0, [TaskPhase.active, TaskPhase.active, TaskPhase.waiting]⟩
    (SemReachable.step
      (SemReachable.step SemReachable.init
        (SemStep.acquire 2 [] [TaskPhase.waiting, TaskPhase.waiting] (by decide)))
      (SemStep.acquire 1 [TaskPhase.active] [TaskPhase.waiting] (by decide)))

end AsyncDownloader
